import Mathlib

/-!
Verification of the OIQ-Partners-Event scraper (`events_scraper.py`).

The file shallowly embeds the scraper's core logic in Lean 4:
the HTML sanitizer `clean_html`, the per-source adapters
(`parse_uipath` with its recursive `find_resource_data` search,
`parse_nvidia`, `parse_aws`), the deduplication pass
`remove_duplicates`, the persistence step `save_to_db` (over a store
modelled from the spec's catalog-store contract, since the SQL schema
file `partner_events.sql` is not in the repository), and the `main`
orchestration, and proves or refutes the specification's claims about
them.

Recursions that a proof assistant cannot accept structurally
(regex-style scans, the depth-first JSON search) are written with an
explicit fuel argument instantiated at a sufficient bound, so every
definition is executable by kernel reduction.
-/

namespace EventsScraper

open scoped List

/-! ## TextSanitizer: `clean_html` (events_scraper.py lines 49-56)

`clean_html` does, in order:
`re.sub(r"<[^>]+>", "", raw)`, then `html.unescape`, then
`re.sub(r"\s+", " ", ...).strip()`, returning `""` for falsy input. -/

/-- Whitespace predicate modelling Python's regex `\s` on `str`
(ASCII whitespace plus the Unicode whitespace characters that arise
here, in particular NBSP `U+00A0` produced by decoding `&nbsp;`;
the long tail of rarer Unicode space characters is not enumerated). -/
def isWs (c : Char) : Bool :=
  c = ' ' || c = '\t' || c = '\n' || c = '\u000B' || c = '\u000C' ||
  c = '\u000D' || c = '\u001C' || c = '\u001D' || c = '\u001E' ||
  c = '\u001F' || c = '\u0085' || c = '\u00A0'

/-- Does the text right after a `<` complete a match of `<[^>]+>`?
True iff the next character is not `>` and some later `>` exists
(the regex needs at least one non-`>` character before the `>`). -/
def tagAt : List Char → Bool
  | [] => false
  | d :: ds => decide (d ≠ '>') && decide ('>' ∈ ds)

/-- Drop characters up to and including the first `>` (the tail of a
`<[^>]+>` match); identity-to-empty if no `>` remains. -/
def dropAfterGt : List Char → List Char
  | [] => []
  | d :: ds => if d = '>' then ds else dropAfterGt ds

/-- Fuelled scan embedding `re.sub(r"<[^>]+>", "", s)`: at each `<`
that starts a match of the pattern, the whole match is removed and the
scan resumes after it; any other character is kept.  Fuel
`s.length` is sufficient since every step consumes at least one
character. -/
def stripTagsGo : Nat → List Char → List Char
  | 0, cs => cs
  | _ + 1, [] => []
  | fuel + 1, c :: rest =>
    if c = '<' && tagAt rest then stripTagsGo fuel (dropAfterGt rest)
    else c :: stripTagsGo fuel rest

def stripTags (cs : List Char) : List Char := stripTagsGo cs.length cs

/-- Modelled from Python's `html.unescape` entity table, restricted to
the named entities relevant to this pipeline (with and without the
terminating semicolon, longest form first, as `html.unescape`
matches the longest known entity). -/
def entityTable : List (List Char × Char) :=
  [("nbsp;".data, '\u00A0'), ("amp;".data, '&'), ("lt;".data, '<'),
   ("gt;".data, '>'), ("quot;".data, '"'),
   ("nbsp".data, '\u00A0'), ("amp".data, '&'), ("lt".data, '<'),
   ("gt".data, '>'), ("quot".data, '"')]

/-- Is `p` a leading segment of `cs`? -/
def leadsWith : List Char → List Char → Bool
  | [], _ => true
  | _ :: _, [] => false
  | a :: as, b :: bs => a = b && leadsWith as bs

/-- Python's `s.startswith(pre)` on Lean strings, computed on the
character lists so it reduces in the kernel (unlike the
byte-position-based `String.startsWith`). -/
def strStartsWith (s pre : String) : Bool := leadsWith pre.data s.data

/-- Try to read one entity name right after a `&`: the decoded
character and the remaining text after the entity name. -/
def matchEntity (cs : List Char) : Option (Char × List Char) :=
  (entityTable.find? fun e => leadsWith e.1 cs).map
    fun e => (e.2, cs.drop e.1.length)

/-- Fuelled scan embedding `html.unescape`: each `&` beginning a known
entity is replaced by the decoded character (the replacement is not
rescanned), any other character is kept. -/
def unescapeGo : Nat → List Char → List Char
  | 0, cs => cs
  | _ + 1, [] => []
  | fuel + 1, c :: rest =>
    if c = '&' then
      match matchEntity rest with
      | some (ch, rest2) => ch :: unescapeGo fuel rest2
      | none => '&' :: unescapeGo fuel rest
    else c :: unescapeGo fuel rest

def unescape (cs : List Char) : List Char := unescapeGo cs.length cs

/-- Embeds `re.sub(r"\s+", " ", s)`: every maximal whitespace run
becomes one `' '`. -/
def collapseWs : List Char → List Char
  | [] => []
  | [c] => if isWs c then [' '] else [c]
  | c :: d :: rest =>
    if isWs c then
      if isWs d then collapseWs (d :: rest)
      else ' ' :: collapseWs (d :: rest)
    else c :: collapseWs (d :: rest)

/-- Remove trailing whitespace (the right half of `str.strip()`). -/
def dropTrailingWs : List Char → List Char
  | [] => []
  | c :: rest =>
    let r := dropTrailingWs rest
    if r = [] && isWs c then [] else c :: r

/-- The whole sanitizer body on character lists: strip tags, decode
entities, collapse whitespace runs, strip both ends. -/
def cleanCore (cs : List Char) : List Char :=
  dropTrailingWs (List.dropWhile isWs (collapseWs (unescape (stripTags cs))))

/-- `clean_html(raw_html)`: Python's `if not raw_html: return ""`
catches both `None` and `""`, so the input is an optional string. -/
def clean_html : Option String → String
  | none => ""
  | some s => if s = "" then "" else ⟨cleanCore s.data⟩

/-- Does the text contain a match of the tag pattern `<[^>]+>`? -/
def containsTag : List Char → Bool
  | [] => false
  | c :: rest => (c = '<' && tagAt rest) || containsTag rest

/-- Does the text contain two adjacent whitespace characters
(equivalently, a whitespace run longer than one character)? -/
def hasAdjWs : List Char → Bool
  | a :: b :: t => (isWs a && isWs b) || hasAdjWs (b :: t)
  | _ => false

/-! ## Data model

Every adapter builds the same dict of eight fields; the relevant
values are strings or `None` (`source` and `category` are always
strings: a literal and an `x or "default"` value respectively). -/

structure Event where
  source : String
  category : String
  title : Option String
  description : Option String
  start_date : Option String
  end_date : Option String
  location : Option String
  register_link : Option String
deriving DecidableEq, Repr

/-- The natural key `(title, start_date, source)` used by
`drop_duplicates(subset=["title", "start_date", "source"])`.
A `none` (Python `None`/pandas `NaN`) component compares equal to
itself, as pandas `duplicated` factorizes every NA value to the same
sentinel. -/
def natKey (e : Event) : Option String × Option String × String :=
  (e.title, e.start_date, e.source)

/-! ## Deduplicator: `remove_duplicates` (lines 191-199)

`pd.DataFrame(events).drop_duplicates(subset=[...], inplace=True)`
keeps the first row of every natural-key group, in row order, and
`to_dict(orient="records")` returns the surviving rows unchanged.
On the empty input, `pd.DataFrame([])` is an empty frame and
`DataFrame.duplicated`/`drop_duplicates` (pandas >= 1.1, so also the
pandas 2.x a 2025 script runs against) return an empty result before
ever validating the `subset` columns, so no exception is raised and
the function returns `[]`. -/

def dedupRun : List Event → List (Option String × Option String × String) → List Event
  | [], _ => []
  | e :: rest, seen =>
    if natKey e ∈ seen then dedupRun rest seen
    else e :: dedupRun rest (natKey e :: seen)

def remove_duplicates (events : List Event) : List Event := dedupRun events []

/-! ## CatalogStore and `save_to_db` (lines 222-264)

`save_to_db` counts the rows, runs one `INSERT IGNORE` per event, and
returns the row-count difference.  The store itself is external;
`insertIgnore` is modelled from the spec: the catalog store enforces a
uniqueness constraint over the natural key `(title, start_date,
source)` (spec section 4.4 and section 6; the schema file
`partner_events.sql` the constraint lives in is not in the
repository), and `INSERT IGNORE` silently skips a row whose key is
already present. -/

/-- Modelled from the spec: one `INSERT IGNORE` against the
`partner_events` table, whose uniqueness constraint over
`(title, start_date, source)` makes the insert a no-op when a row
with the same natural key is already stored. -/
def insertIgnore (store : List Event) (e : Event) : List Event :=
  if natKey e ∈ store.map natKey then store else store ++ [e]

/-- `save_to_db(events)`: returns the updated store and the reported
number of newly inserted rows (`after_count - before_count`);
an empty batch returns `0` without touching the store. -/
def save_to_db (store : List Event) (events : List Event) : List Event × Nat :=
  if events = [] then (store, 0)
  else
    let after := events.foldl insertIgnore store
    (after, after.length - store.length)

/-! ## JSON payloads and the three adapters -/

/-- A deserialized JSON value (`json.loads` output): the shapes the
adapters inspect.  Python dicts are association lists with distinct
keys; lookups take the first binding. -/
inductive Json where
  | null : Json
  | bool (b : Bool) : Json
  | num (n : Int) : Json
  | str (s : String) : Json
  | arr (items : List Json) : Json
  | obj (fields : List (String × Json)) : Json

/-- Python truthiness of a JSON value (`if not data: ...`). -/
def jsonTruthy : Json → Bool
  | .null => false
  | .bool b => b
  | .num n => decide (n ≠ 0)
  | .str s => decide (s ≠ "")
  | .arr items => !items.isEmpty
  | .obj fields => !fields.isEmpty

/-- `d.get(k)`: `null` when the key is missing or the value is not an
object (a non-dict receiver raises in Python and is outside the
modelled input domain). -/
def jGet (j : Json) (k : String) : Json :=
  match j with
  | .obj fields => (fields.lookup k).getD .null
  | _ => .null

/-- A string-valued field: `none` for a missing key or JSON `null`
(non-string field values would raise in the Python string operations
applied to them and are outside the modelled input domain). -/
def jGetStr (j : Json) (k : String) : Option String :=
  match jGet j k with
  | .str s => some s
  | _ => none

/-- Python `x or y` on optional strings: `None` and `""` are falsy. -/
def oOr (a b : Option String) : Option String :=
  match a with
  | some s => if s = "" then b else some s
  | none => b

/-- Python `x or "default"` on an optional string. -/
def sOr (a : Option String) (d : String) : String :=
  match a with
  | some s => if s = "" then d else s
  | none => d

def isList : Json → Bool
  | .arr _ => true
  | _ => false

def asList : Json → List Json
  | .arr items => items
  | _ => []

/-! ### `find_resource_data` (lines 75-88)

The Python helper walks dicts and lists recursively: in a dict it
checks each binding in order, returns the value of the first key
`"resourceData"` holding a list (even an empty one, abandoning the
rest of that dict), and otherwise recurses into the value; a child
result bubbles up only `if found:`, i.e. only when it is a non-empty
list, so an empty `resourceData` found deeper is skipped and the
search continues. -/

mutual

def find_resource_data : Json → Option (List Json)
  | .obj fields => frdFields fields
  | .arr items => frdList items
  | _ => none

def frdFields : List (String × Json) → Option (List Json)
  | [] => none
  | (k, v) :: rest =>
    if k = "resourceData" && isList v then some (asList v)
    else
      match find_resource_data v with
      | some (x :: xs) => some (x :: xs)
      | _ => frdFields rest

def frdList : List Json → Option (List Json)
  | [] => none
  | j :: rest =>
    match find_resource_data j with
    | some (x :: xs) => some (x :: xs)
    | _ => frdList rest

end

/-! ### UiPath adapter (lines 72-121) -/

/-- The body of the `for item in data` loop of `parse_uipath`. -/
def parse_uipath_item (item : Json) : Event :=
  let slug := jGetStr item "slug"
  { source := "UiPath"
    category := sOr (jGetStr item "category") "Webinar"
    title := jGetStr item "title"
    description := some (clean_html (oOr (jGetStr item "teaserBody") (jGetStr item "body")))
    start_date := jGetStr item "date"
    end_date := none
    location := none
    register_link :=
      match slug with
      | some s =>
        if s = "" then none
        else if strStartsWith s "http" then some s
        else some ("https://www.uipath.com" ++ s)
      | none => none }

/-- `parse_uipath`: `if not data: return []` treats both `None` and an
empty `resourceData` list as absent. -/
def parse_uipath (j : Json) : List Event :=
  match find_resource_data j with
  | some (x :: xs) => (x :: xs).map parse_uipath_item
  | _ => []

/-! ### NVIDIA adapter (lines 128-152) -/

def parse_nvidia_item (item : Json) : Event :=
  { source := "NVIDIA"
    category := sOr (jGetStr item "type") "Conference"
    title := jGetStr item "title"
    description := none
    start_date := jGetStr item "startDate"
    end_date := jGetStr item "endDate"
    location := oOr (jGetStr item "location") (jGetStr item "venue")
    register_link := jGetStr item "url" }

/-- `parse_nvidia`: the item list is `json_data.get("events", [])` for
a dict payload and the payload itself for a bare list; a falsy list
yields no events. -/
def parse_nvidia (j : Json) : List Event :=
  let data : Json :=
    match j with
    | .obj fields => ((fields.lookup "events").getD (.arr []))
    | _ => j
  if jsonTruthy data then (asList data).map parse_nvidia_item else []

/-! ### AWS adapter (lines 158-184) -/

def parse_aws_item (i : Json) : Event :=
  let item := jGet i "item"
  let fields := jGet item "additionalFields"
  { source := "AWS"
    category := sOr (jGetStr fields "eventType") "Webinar"
    title := jGetStr fields "title"
    description := some (clean_html (oOr (jGetStr fields "bodyBack") (jGetStr fields "body")))
    start_date := jGetStr item "dateCreated"
    end_date := jGetStr item "dateUpdated"
    location := none
    register_link := oOr (jGetStr fields "ctaLink") (jGetStr fields "primaryCTALink") }

def parse_aws (j : Json) : List Event :=
  let items := asList (jGet j "items")
  if items.isEmpty then [] else items.map parse_aws_item

/-! ## Pipeline: `main` (lines 291-333)

`fetch_json` raises on a network error, a timeout, or a non-success
HTTP status (`response.raise_for_status()`); `main` wraps none of the
three fetch/parse stages in a handler, so a raised exception
propagates out of `main` and ends the run.  A fetch outcome is
therefore an `Except`.  The CSV export and the log file are external
sinks; the run log's counts are returned as a record.  Note the two
consecutive `save_to_db(all_events)` calls at lines 326-328: only the
second call's return value is logged as `inserted_total`. -/

inductive FetchError where
  | network : FetchError
  | timeout : FetchError
  | httpStatus (code : Nat) : FetchError
deriving DecidableEq, Repr

structure RunLog where
  uipath : Nat
  nvidia : Nat
  aws : Nat
  total : Nat
  inserted_total : Nat
deriving DecidableEq, Repr

/-- `main()`, as a function of the three fetch outcomes and the
initial store state; returns the final store and the run log, or the
unhandled exception that aborted the run. -/
def main (fetchU fetchN fetchA : Except FetchError Json)
    (store : List Event) : Except FetchError (List Event × RunLog) :=
  match fetchU with
  | .error e => .error e
  | .ok jU =>
    match fetchN with
    | .error e => .error e
    | .ok jN =>
      match fetchA with
      | .error e => .error e
      | .ok jA =>
        let uipath_events := parse_uipath jU
        let nvidia_events := parse_nvidia jN
        let aws_events := parse_aws jA
        let all_events := remove_duplicates (uipath_events ++ nvidia_events ++ aws_events)
        let r1 := save_to_db store all_events
        let r2 := save_to_db r1.1 all_events
        .ok (r2.1,
          { uipath := uipath_events.length
            nvidia := nvidia_events.length
            aws := aws_events.length
            total := all_events.length
            inserted_total := r2.2 })

/-! ## Reference enumerations of `resourceData` occurrences

Specification-level companions to `find_resource_data`, used to state
what the search returns.  `allRD` lists, in depth-first order, every
value of a key `"resourceData"` holding a list anywhere in the tree
(its head is "the first key named `resourceData` whose value is a
sequence" in the claim's words).  `cutEnum` lists the same values but
in the order, and with the cutoffs, of the code's search: reaching a
`resourceData` list key abandons the rest of that object. -/

mutual

def allRD : Json → List (List Json)
  | .obj fields => allRDFields fields
  | .arr items => allRDList items
  | _ => []

def allRDFields : List (String × Json) → List (List Json)
  | [] => []
  | (k, v) :: rest =>
    (if k = "resourceData" && isList v then [asList v] else []) ++
      allRD v ++ allRDFields rest

def allRDList : List Json → List (List Json)
  | [] => []
  | j :: rest => allRD j ++ allRDList rest

end

mutual

def cutEnum : Json → List (List Json)
  | .obj fields => cutEnumFields fields
  | .arr items => cutEnumList items
  | _ => []

def cutEnumFields : List (String × Json) → List (List Json)
  | [] => []
  | (k, v) :: rest =>
    if k = "resourceData" && isList v then [asList v]
    else cutEnum v ++ cutEnumFields rest

def cutEnumList : List Json → List (List Json)
  | [] => []
  | j :: rest => cutEnum j ++ cutEnumList rest

end

/-- The first non-empty list in an enumeration (what can bubble up
through the `if found:` checks). -/
def firstNE (L : List (List Json)) : Option (List Json) :=
  L.find? fun l => !l.isEmpty

/-- Collapse the results `find_resource_data` can produce to the ones
`parse_uipath` treats as found: `none` and `some []` are both falsy. -/
def normRD : Option (List Json) → Option (List Json)
  | some (x :: xs) => some (x :: xs)
  | _ => none

/-- A sample record with a null title (for the null-key dedup cases). -/
def sampleDupA : Event :=
  { source := "UiPath", category := "Webinar", title := none,
    description := some "first copy", start_date := some "2025-01-01",
    end_date := none, location := none, register_link := none }

/-- A second record with the same natural key as `sampleDupA` (null
title, same `start_date` and `source`) but different other fields. -/
def sampleDupB : Event :=
  { source := "UiPath", category := "Webinar", title := none,
    description := some "second copy", start_date := some "2025-01-01",
    end_date := none, location := none, register_link := none }

/-! # Theorems -/


/-! ### Sanitizer lemmas -/

theorem stripTagsGo_nil (fuel : Nat) : stripTagsGo fuel [] = [] := by
  cases fuel <;> rfl

theorem dropAfterGt_sublist (l : List Char) : dropAfterGt l <+ l := by
  induction l with
  | nil => simp [dropAfterGt]
  | cons d ds ih =>
    rw [dropAfterGt]
    split
    · exact List.sublist_cons_self d ds
    · exact ih.trans (List.sublist_cons_self d ds)

theorem stripTagsGo_sublist : ∀ fuel cs, stripTagsGo fuel cs <+ cs := by
  intro fuel
  induction fuel with
  | zero => intro cs; exact List.Sublist.refl cs
  | succ f ih =>
    intro cs
    match cs with
    | [] => exact List.Sublist.refl []
    | c :: rest =>
      rw [stripTagsGo]
      split
      · exact (((ih _).trans (dropAfterGt_sublist rest)).trans (List.sublist_cons_self c rest))
      · exact (ih rest).cons₂ c

theorem tagAt_false_of_not_mem {l : List Char} (h : '>' ∉ l) : tagAt l = false := by
  cases l with
  | nil => rfl
  | cons d ds =>
    have hds : '>' ∉ ds := fun hm => h (List.mem_cons_of_mem d hm)
    simp [tagAt, hds]

theorem containsTag_stripTagsGo :
    ∀ fuel cs, cs.length ≤ fuel → containsTag (stripTagsGo fuel cs) = false := by
  intro fuel
  induction fuel with
  | zero =>
    intro cs h
    have : cs = [] := List.length_eq_zero.mp (Nat.le_zero.mp h)
    subst this; rfl
  | succ f ih =>
    intro cs h
    match cs with
    | [] => rw [stripTagsGo_nil]; rfl
    | c :: rest =>
      have hr : rest.length ≤ f := Nat.le_of_succ_le_succ h
      rw [stripTagsGo]
      by_cases hm : (c = '<' && tagAt rest) = true
      · rw [if_pos hm]
        exact ih _ (Nat.le_trans (dropAfterGt_sublist rest).length_le hr)
      · rw [if_neg hm, containsTag]
        have hrec := ih rest hr
        rw [hrec, Bool.or_false]
        by_cases hc : c = '<'
        · subst hc
          have htag : tagAt rest = false := by
            cases ht : tagAt rest
            · rfl
            · exact absurd (by simp [ht] : (('<' : Char) = '<' && tagAt rest) = true) hm
          cases rest with
          | nil => rw [stripTagsGo_nil]; rfl
          | cons d ds =>
            by_cases hd : d = '>'
            · subst hd
              cases f with
              | zero => simp at hr
              | succ f2 =>
                rw [stripTagsGo, if_neg (by simp [tagAt])]
                simp [tagAt]
            · have hds : '>' ∉ ds := by
                simp only [tagAt, hd, Bool.and_eq_false_iff] at htag
                rcases htag with h1 | h2
                · simp at h1; exact absurd h1 hd
                · simpa using h2
              have hnotin : '>' ∉ d :: ds := by
                intro hmem
                rcases List.mem_cons.mp hmem with h1 | h2
                · exact hd h1.symm
                · exact hds h2
              have hout : '>' ∉ stripTagsGo f (d :: ds) :=
                fun hmem => hnotin ((stripTagsGo_sublist f (d :: ds)).mem hmem)
              rw [tagAt_false_of_not_mem hout, Bool.and_false]
        · simp [hc]

theorem unescapeGo_id : ∀ fuel cs, '&' ∉ cs → unescapeGo fuel cs = cs := by
  intro fuel
  induction fuel with
  | zero => intro cs _; rfl
  | succ f ih =>
    intro cs h
    match cs with
    | [] => rfl
    | c :: rest =>
      have hc : ¬c = '&' := fun hx => h (hx ▸ List.mem_cons_self c rest)
      rw [unescapeGo, if_neg hc, ih rest (fun hm => h (List.mem_cons_of_mem c hm))]

theorem unescape_id {cs : List Char} (h : '&' ∉ cs) : unescape cs = cs :=
  unescapeGo_id cs.length cs h

theorem mem_collapseWs : ∀ l (x : Char), x ∈ collapseWs l → x = ' ' ∨ x ∈ l := by
  intro l
  induction l using collapseWs.induct with
  | case1 => intro x hx; simp [collapseWs] at hx
  | case2 c hc => intro x hx; simp [collapseWs, hc] at hx; exact Or.inl hx
  | case3 c hc => intro x hx; simp [collapseWs, hc] at hx; exact Or.inr (by simp [hx])
  | case4 c d rest hc hd ih =>
    intro x hx
    simp only [collapseWs, hc, hd, if_true] at hx
    rcases ih x hx with h | h
    · exact Or.inl h
    · exact Or.inr (List.mem_cons_of_mem c h)
  | case5 c d rest hc hd ih =>
    intro x hx
    rw [collapseWs, if_pos hc, if_neg hd] at hx
    rcases List.mem_cons.mp hx with h | h
    · exact Or.inl h
    · rcases ih x h with h3 | h3
      · exact Or.inl h3
      · exact Or.inr (List.mem_cons_of_mem c h3)
  | case6 c d rest hc ih =>
    intro x hx
    rw [collapseWs, if_neg hc] at hx
    rcases List.mem_cons.mp hx with h | h
    · exact Or.inr (h ▸ List.mem_cons_self c (d :: rest))
    · rcases ih x h with h3 | h3
      · exact Or.inl h3
      · exact Or.inr (List.mem_cons_of_mem c h3)

theorem head?_collapseWs_of_not_ws {d : Char} (t : List Char) (hd : isWs d = false) :
    (collapseWs (d :: t)).head? = some d := by
  cases t with
  | nil => simp [collapseWs, hd]
  | cons e r => simp [collapseWs, hd]

theorem hasAdjWs_collapseWs : ∀ l, hasAdjWs (collapseWs l) = false := by
  intro l
  induction l using collapseWs.induct with
  | case1 => rfl
  | case2 c hc => simp [collapseWs, hc, hasAdjWs]
  | case3 c hc => simp [collapseWs, hc, hasAdjWs]
  | case4 c d rest hc hd ih =>
    rw [collapseWs, if_pos hc, if_pos hd]
    exact ih
  | case5 c d rest hc hd ih =>
    have hdF : isWs d = false := by simpa using hd
    rcases hR : collapseWs (d :: rest) with _ | ⟨x, xs⟩
    · rw [collapseWs, if_pos hc, if_neg hd, hR]; rfl
    · have hx : x = d := by
        have hh := head?_collapseWs_of_not_ws rest hdF
        rw [hR] at hh; simpa using hh
      subst hx
      rw [hR] at ih
      rw [collapseWs, if_pos hc, if_neg hd, hR, hasAdjWs, ih, hdF]
      simp
  | case6 c d rest hc ih =>
    have hcF : isWs c = false := by simpa using hc
    rcases hR : collapseWs (d :: rest) with _ | ⟨x, xs⟩
    · rw [collapseWs, if_neg hc, hR]; rfl
    · rw [hR] at ih
      rw [collapseWs, if_neg hc, hR, hasAdjWs, ih, hcF]
      simp

theorem containsTag_cons_false {c : Char} {t : List Char}
    (h : containsTag (c :: t) = false) : containsTag t = false := by
  rw [containsTag, Bool.or_eq_false_iff] at h
  exact h.2

theorem containsTag_collapseWs :
    ∀ l, containsTag l = false → containsTag (collapseWs l) = false := by
  intro l
  induction l using collapseWs.induct with
  | case1 => intro _; rfl
  | case2 c hc => intro _; simp [collapseWs, hc, containsTag, tagAt]
  | case3 c hc => intro _; simp [collapseWs, hc, containsTag, tagAt]
  | case4 c d rest hc hd ih =>
    intro h
    rw [collapseWs, if_pos hc, if_pos hd]
    exact ih (containsTag_cons_false h)
  | case5 c d rest hc hd ih =>
    intro h
    rw [collapseWs, if_pos hc, if_neg hd, containsTag]
    rw [ih (containsTag_cons_false h), Bool.or_false]
    simp
  | case6 c d rest hc ih =>
    intro h
    rw [collapseWs, if_neg hc, containsTag]
    have hrec := ih (containsTag_cons_false h)
    rw [hrec, Bool.or_false]
    by_cases hceq : c = '<'
    · subst hceq
      have htag : tagAt (d :: rest) = false := by
        rw [containsTag, Bool.or_eq_false_iff] at h
        simpa using h.1
      by_cases hd : d = '>'
      · subst hd
        have hhead := head?_collapseWs_of_not_ws rest (show isWs '>' = false by decide)
        rcases hR : collapseWs ('>' :: rest) with _ | ⟨x, xs⟩
        · rfl
        · have hx : x = '>' := by rw [hR] at hhead; simpa using hhead
          subst hx
          simp [tagAt]
      · have hnot : '>' ∉ rest := by
          rw [tagAt, Bool.and_eq_false_iff] at htag
          rcases htag with h3 | h3
          · simp at h3; exact absurd h3 hd
          · simpa using h3
        have hnotc : '>' ∉ d :: rest := by
          intro hm
          rcases List.mem_cons.mp hm with h3 | h3
          · exact hd h3.symm
          · exact hnot h3
        have hout : '>' ∉ collapseWs (d :: rest) := by
          intro hm
          rcases mem_collapseWs (d :: rest) '>' hm with h3 | h3
          · exact absurd h3 (by decide)
          · exact hnotc h3
        rw [tagAt_false_of_not_mem hout, Bool.and_false]
    · simp [hceq]

theorem containsTag_dropWhile {l : List Char} (h : containsTag l = false) :
    containsTag (l.dropWhile isWs) = false := by
  induction l with
  | nil => exact h
  | cons c t ih =>
    rw [List.dropWhile_cons]
    split
    · exact ih (containsTag_cons_false h)
    · exact h

theorem hasAdjWs_cons_false {c : Char} {t : List Char}
    (h : hasAdjWs (c :: t) = false) : hasAdjWs t = false := by
  cases t with
  | nil => rfl
  | cons b t2 =>
    rw [hasAdjWs, Bool.or_eq_false_iff] at h
    exact h.2

theorem hasAdjWs_dropWhile {l : List Char} (h : hasAdjWs l = false) :
    hasAdjWs (l.dropWhile isWs) = false := by
  induction l with
  | nil => exact h
  | cons c t ih =>
    rw [List.dropWhile_cons]
    split
    · exact ih (hasAdjWs_cons_false h)
    · exact h

theorem dropTrailingWs_append : ∀ l : List Char, ∃ q, l = dropTrailingWs l ++ q := by
  intro l
  induction l with
  | nil => exact ⟨[], rfl⟩
  | cons c rest ih =>
    rcases ih with ⟨q, hq⟩
    rw [dropTrailingWs]
    split
    · exact ⟨c :: rest, rfl⟩
    · exact ⟨q, by rw [List.cons_append, ← hq]⟩

theorem getLast?_dropTrailingWs :
    ∀ (l : List Char) (c : Char), (dropTrailingWs l).getLast? = some c → isWs c = false := by
  intro l
  induction l with
  | nil => intro c h; simp [dropTrailingWs] at h
  | cons c0 rest ih =>
    intro c h
    rw [dropTrailingWs] at h
    split at h
    · simp at h
    · rename_i hcond
      rcases hr : dropTrailingWs rest with _ | ⟨x, xs⟩
      · rw [hr] at h hcond
        simp at h hcond
        rw [← h]
        simpa using hcond
      · rw [hr] at h
        rw [List.getLast?_cons_cons] at h
        exact ih c (hr ▸ h)

theorem containsTag_append_mono :
    ∀ p q : List Char, containsTag p = true → containsTag (p ++ q) = true := by
  intro p q
  induction p with
  | nil => intro h; simp [containsTag] at h
  | cons c t ih =>
    intro h
    rw [containsTag, Bool.or_eq_true] at h
    rw [List.cons_append, containsTag, Bool.or_eq_true]
    rcases h with h | h
    · left
      rw [Bool.and_eq_true] at h ⊢
      refine ⟨h.1, ?_⟩
      cases t with
      | nil => simp [tagAt] at h
      | cons d ds =>
        rw [List.cons_append, tagAt]
        rw [tagAt, Bool.and_eq_true] at h
        rcases h.2 with ⟨h1, h2⟩
        simp at h2 ⊢
        exact ⟨by simpa using h1, Or.inl h2⟩
    · exact Or.inr (ih h)

theorem hasAdjWs_append_mono :
    ∀ p q : List Char, hasAdjWs p = true → hasAdjWs (p ++ q) = true := by
  intro p q
  induction p with
  | nil => intro h; simp [hasAdjWs] at h
  | cons a t ih =>
    intro h
    cases t with
    | nil => simp [hasAdjWs] at h
    | cons b t2 =>
      rw [hasAdjWs, Bool.or_eq_true] at h
      rw [List.cons_append, List.cons_append, hasAdjWs, Bool.or_eq_true]
      rcases h with h | h
      · exact Or.inl h
      · exact Or.inr (by rw [← List.cons_append]; exact ih h)

theorem containsTag_dropTrailingWs {l : List Char} (h : containsTag l = false) :
    containsTag (dropTrailingWs l) = false := by
  rcases dropTrailingWs_append l with ⟨q, hq⟩
  cases hc : containsTag (dropTrailingWs l)
  · rfl
  · rw [hq, containsTag_append_mono _ q hc] at h
    exact h

theorem hasAdjWs_dropTrailingWs {l : List Char} (h : hasAdjWs l = false) :
    hasAdjWs (dropTrailingWs l) = false := by
  rcases dropTrailingWs_append l with ⟨q, hq⟩
  cases hc : hasAdjWs (dropTrailingWs l)
  · rfl
  · rw [hq, hasAdjWs_append_mono _ q hc] at h
    exact h

theorem head?_dropTrailingWs {l : List Char} (h : dropTrailingWs l ≠ []) :
    (dropTrailingWs l).head? = l.head? := by
  rcases dropTrailingWs_append l with ⟨q, hq⟩
  rcases hd : dropTrailingWs l with _ | ⟨x, xs⟩
  · exact absurd hd h
  · rw [hd] at hq
    rw [hq, List.cons_append]
    rfl

theorem mem_dropTrailingWs {l : List Char} {x : Char} (h : x ∈ dropTrailingWs l) :
    x ∈ l := by
  rcases dropTrailingWs_append l with ⟨q, hq⟩
  rw [hq]
  exact List.mem_append_left q h

/-- The complete sanitizer guarantees provable for every input, plus
the tag/entity guarantees that hold on inputs without `&`. -/
theorem cleanCore_props (cs : List Char) :
    hasAdjWs (cleanCore cs) = false ∧
    (∀ c, (cleanCore cs).head? = some c → isWs c = false) ∧
    (∀ c, (cleanCore cs).getLast? = some c → isWs c = false) ∧
    ('&' ∉ cs → containsTag (cleanCore cs) = false ∧ '&' ∉ cleanCore cs) := by
  refine ⟨?_, ?_, ?_, ?_⟩
  · exact hasAdjWs_dropTrailingWs (hasAdjWs_dropWhile (hasAdjWs_collapseWs _))
  · intro c hc
    have hne : dropTrailingWs ((collapseWs (unescape (stripTags cs))).dropWhile isWs) ≠ [] := by
      intro he
      rw [cleanCore, he] at hc
      simp at hc
    rw [cleanCore, head?_dropTrailingWs hne] at hc
    have := List.head?_dropWhile_not isWs (collapseWs (unescape (stripTags cs)))
    rw [hc] at this
    exact this
  · exact fun c hc => getLast?_dropTrailingWs _ c hc
  · intro hamp
    have hsub : '&' ∉ stripTags cs :=
      fun hm => hamp ((stripTagsGo_sublist cs.length cs).mem hm)
    have hid : unescape (stripTags cs) = stripTags cs := unescape_id hsub
    have htags : containsTag (stripTags cs) = false :=
      containsTag_stripTagsGo cs.length cs (Nat.le_refl _)
    constructor
    · rw [cleanCore, hid]
      exact containsTag_dropTrailingWs (containsTag_dropWhile
        (containsTag_collapseWs _ htags))
    · intro hm
      rw [cleanCore, hid] at hm
      have h1 := mem_dropTrailingWs hm
      have h2 := (List.dropWhile_sublist isWs).mem h1
      rcases mem_collapseWs _ '&' h2 with h3 | h3
      · exact absurd h3 (by decide)
      · exact hsub h3


/-! ### Deduplicator lemmas -/

theorem dedupRun_sublist : ∀ l seen, dedupRun l seen <+ l := by
  intro l
  induction l with
  | nil => intro seen; exact List.Sublist.refl []
  | cons e rest ih =>
    intro seen
    rw [dedupRun]
    split
    · exact (ih seen).trans (List.sublist_cons_self e rest)
    · exact (ih (natKey e :: seen)).cons₂ e

theorem dedupRun_keys_fresh :
    ∀ l seen, ((dedupRun l seen).map natKey).Nodup ∧
      ∀ k ∈ (dedupRun l seen).map natKey, k ∉ seen := by
  intro l
  induction l with
  | nil => intro seen; exact ⟨List.nodup_nil, by simp [dedupRun]⟩
  | cons e rest ih =>
    intro seen
    rw [dedupRun]
    split
    · exact ih seen
    · rename_i hnew
      rcases ih (natKey e :: seen) with ⟨hnd, hfresh⟩
      constructor
      · rw [List.map_cons, List.nodup_cons]
        refine ⟨fun hm => ?_, hnd⟩
        exact hfresh _ hm (List.mem_cons_self _ _)
      · intro k hk
        rw [List.map_cons, List.mem_cons] at hk
        rcases hk with hk | hk
        · exact hk ▸ hnew
        · exact fun hs => hfresh k hk (List.mem_cons_of_mem _ hs)

theorem dedupRun_covers :
    ∀ l seen, ∀ e ∈ l, natKey e ∈ seen ∨ natKey e ∈ (dedupRun l seen).map natKey := by
  intro l
  induction l with
  | nil => intro seen e he; simp at he
  | cons e0 rest ih =>
    intro seen e he
    rw [dedupRun]
    rcases List.mem_cons.mp he with he | he
    · subst he
      split
      · rename_i hseen; exact Or.inl hseen
      · right; rw [List.map_cons]; exact List.mem_cons_self _ _
    · split
      · exact ih seen e he
      · rcases ih (natKey e0 :: seen) e he with h | h
        · rcases List.mem_cons.mp h with h | h
          · right; rw [List.map_cons, h]; exact List.mem_cons_self _ _
          · exact Or.inl h
        · right; rw [List.map_cons]; exact List.mem_cons_of_mem _ h

theorem dedupRun_first :
    ∀ l seen, ∀ e2 ∈ dedupRun l seen,
      l.find? (fun x => decide (natKey x = natKey e2)) = some e2 := by
  intro l
  induction l with
  | nil => intro seen e2 he2; simp [dedupRun] at he2
  | cons e rest ih =>
    intro seen e2 he2
    rw [dedupRun] at he2
    split at he2
    · rename_i hseen
      have hne : natKey e ≠ natKey e2 := by
        intro heq
        have hfresh := (dedupRun_keys_fresh rest seen).2 (natKey e2)
          (List.mem_map_of_mem natKey he2)
        exact hfresh (heq ▸ hseen)
      rw [List.find?_cons]
      rw [decide_eq_false hne]
      exact ih seen e2 he2
    · rename_i hnew
      rcases List.mem_cons.mp he2 with he2 | he2
      · subst he2
        rw [List.find?_cons, decide_eq_true rfl]
      · have hfresh := (dedupRun_keys_fresh rest (natKey e :: seen)).2 (natKey e2)
          (List.mem_map_of_mem natKey he2)
        have hne : natKey e ≠ natKey e2 := by
          intro heq
          exact hfresh (heq ▸ List.mem_cons_self _ _)
        rw [List.find?_cons, decide_eq_false hne]
        exact ih (natKey e :: seen) e2 he2

theorem dedupRun_of_nodup :
    ∀ l seen, (l.map natKey).Nodup → (∀ e ∈ l, natKey e ∉ seen) →
      dedupRun l seen = l := by
  intro l
  induction l with
  | nil => intro seen _ _; rfl
  | cons e rest ih =>
    intro seen hnd hfresh
    rw [dedupRun, if_neg (hfresh e (List.mem_cons_self _ _))]
    rw [List.map_cons, List.nodup_cons] at hnd
    congr 1
    refine ih (natKey e :: seen) hnd.2 ?_
    intro x hx hmem
    rcases List.mem_cons.mp hmem with h | h
    · exact hnd.1 (h ▸ List.mem_map_of_mem natKey hx)
    · exact hfresh x (List.mem_cons_of_mem e hx) h

theorem dedupRun_nil_of_seen :
    ∀ l seen, (∀ e ∈ l, natKey e ∈ seen) → dedupRun l seen = [] := by
  intro l
  induction l with
  | nil => intro seen _; rfl
  | cons e rest ih =>
    intro seen hall
    rw [dedupRun, if_pos (hall e (List.mem_cons_self _ _))]
    exact ih seen (fun x hx => hall x (List.mem_cons_of_mem e hx))

theorem dedupRun_seen_congr :
    ∀ l s1 s2, (∀ k, k ∈ s1 ↔ k ∈ s2) → dedupRun l s1 = dedupRun l s2 := by
  intro l
  induction l with
  | nil => intro s1 s2 _; rfl
  | cons e rest ih =>
    intro s1 s2 hiff
    rw [dedupRun, dedupRun]
    by_cases hm : natKey e ∈ s1
    · rw [if_pos hm, if_pos ((hiff _).mp hm)]
      exact ih s1 s2 hiff
    · rw [if_neg hm, if_neg (fun hx => hm ((hiff _).mpr hx))]
      rw [ih (natKey e :: s1) (natKey e :: s2) (by intro k; simp [hiff k])]


/-! ### CatalogStore lemmas -/

theorem foldl_insertIgnore :
    ∀ (b st : List Event),
      (b.foldl insertIgnore st).map natKey
        = st.map natKey ++ (dedupRun b (st.map natKey)).map natKey ∧
      (b.foldl insertIgnore st).length
        = st.length + (dedupRun b (st.map natKey)).length := by
  intro b
  induction b with
  | nil => intro st; simp [dedupRun]
  | cons e rest ih =>
    intro st
    rw [List.foldl_cons, dedupRun]
    by_cases hm : natKey e ∈ st.map natKey
    · rw [if_pos hm]
      have hkeep : insertIgnore st e = st := by rw [insertIgnore, if_pos hm]
      rw [hkeep]
      exact ih st
    · rw [if_neg hm]
      have hins : insertIgnore st e = st ++ [e] := by rw [insertIgnore, if_neg hm]
      rw [hins]
      rcases ih (st ++ [e]) with ⟨h1, h2⟩
      have hcg : dedupRun rest ((st ++ [e]).map natKey)
          = dedupRun rest (natKey e :: st.map natKey) := by
        apply dedupRun_seen_congr
        intro k
        simp [or_comm]
      constructor
      · rw [h1, hcg]
        simp
      · rw [h2, hcg]
        simp only [List.length_append, List.length_cons, List.length_map,
          List.length_nil, List.map_cons]
        omega

theorem dedupRun_keys_toFinset :
    ∀ (l : List Event) seen, ((dedupRun l seen).map natKey).toFinset
      = (l.map natKey).toFinset \ seen.toFinset := by
  intro l
  induction l with
  | nil => intro seen; simp [dedupRun]
  | cons e rest ih =>
    intro seen
    rw [dedupRun]
    split
    · rename_i hm
      rw [ih seen, List.map_cons, List.toFinset_cons,
        Finset.insert_sdiff_of_mem _ (List.mem_toFinset.mpr hm)]
    · rename_i hm
      rw [List.map_cons, List.map_cons, List.toFinset_cons, List.toFinset_cons,
        ih (natKey e :: seen)]
      ext k
      simp only [Finset.mem_insert, Finset.mem_sdiff, List.mem_toFinset,
        List.toFinset_cons, List.mem_cons]
      constructor
      · rintro (h | ⟨h1, h2⟩)
        · exact ⟨Or.inl h, h ▸ hm⟩
        · exact ⟨Or.inr h1, fun hs => h2 (Or.inr hs)⟩
      · rintro ⟨h1 | h1, h2⟩
        · exact Or.inl h1
        · by_cases hke : k = natKey e
          · exact Or.inl hke
          · exact Or.inr ⟨h1, by rintro (h3 | h3); exact hke h3; exact h2 h3⟩

/-- The count a `save_to_db` call reports: the number of distinct
natural keys of the batch not already present in the store. -/
theorem save_to_db_count (st b : List Event) :
    (save_to_db st b).2
      = ((b.map natKey).toFinset \ (st.map natKey).toFinset).card := by
  rw [save_to_db]
  split
  · rename_i hb
    subst hb
    simp
  · rcases foldl_insertIgnore b st with ⟨_, h2⟩
    have hnd : ((dedupRun b (st.map natKey)).map natKey).Nodup :=
      (dedupRun_keys_fresh b (st.map natKey)).1
    calc (b.foldl insertIgnore st).length - st.length
        = (dedupRun b (st.map natKey)).length := by omega
      _ = ((dedupRun b (st.map natKey)).map natKey).length := (List.length_map _ _).symm
      _ = ((dedupRun b (st.map natKey)).map natKey).toFinset.card :=
          (List.toFinset_card_of_nodup hnd).symm
      _ = ((b.map natKey).toFinset \ (st.map natKey).toFinset).card := by
          rw [dedupRun_keys_toFinset]

/-- After one `save_to_db` call, every key of the batch is present in
the store. -/
theorem save_to_db_keys_present (st b : List Event) :
    ∀ e ∈ b, natKey e ∈ ((save_to_db st b).1).map natKey := by
  intro e he
  rw [save_to_db]
  split
  · rename_i hb; subst hb; simp at he
  · rcases foldl_insertIgnore b st with ⟨h1, _⟩
    rw [h1, List.mem_append]
    rcases dedupRun_covers b (st.map natKey) e he with h | h
    · exact Or.inl h
    · exact Or.inr h

/-- A batch whose keys are all present inserts nothing. -/
theorem save_to_db_zero_of_present (st b : List Event)
    (h : ∀ e ∈ b, natKey e ∈ st.map natKey) : (save_to_db st b).2 = 0 := by
  rw [save_to_db]
  split
  · rfl
  · rcases foldl_insertIgnore b st with ⟨_, h2⟩
    rw [dedupRun_nil_of_seen b (st.map natKey) h] at h2
    show (b.foldl insertIgnore st).length - st.length = 0
    simp only [List.length_nil] at h2
    omega

/-- `save_to_db` preserves the store invariant: no two rows share a
natural key. -/
theorem save_to_db_nodup (st b : List Event)
    (h : (st.map natKey).Nodup) : (((save_to_db st b).1).map natKey).Nodup := by
  rw [save_to_db]
  split
  · exact h
  · rcases foldl_insertIgnore b st with ⟨h1, _⟩
    rw [h1]
    refine List.Nodup.append h (dedupRun_keys_fresh b (st.map natKey)).1 ?_
    intro k hk1 hk2
    exact (dedupRun_keys_fresh b (st.map natKey)).2 k hk2 hk1

/-! ### `find_resource_data` search lemmas -/

theorem normRD_ne_nil {o : Option (List Json)} {l : List Json}
    (h : normRD o = some l) : l ≠ [] := by
  match o with
  | none => simp [normRD] at h
  | some [] => simp [normRD] at h
  | some (x :: xs) =>
    rw [normRD] at h
    cases h
    simp

theorem firstNE_cons_of_ne {l : List Json} {L : List (List Json)} (h : l ≠ []) :
    firstNE (l :: L) = some l := by
  rw [firstNE, List.find?_cons]
  have : (!l.isEmpty) = true := by simp [h]
  rw [this]

/-- The search returns (through the truthiness filters) exactly the
first non-empty `resourceData` list in the code's cut depth-first
order. -/
theorem normRD_find_resource_data (j : Json) :
    normRD (find_resource_data j) = firstNE (cutEnum j) := by
  refine find_resource_data.induct
    (fun j => normRD (find_resource_data j) = firstNE (cutEnum j))
    (fun xs => normRD (frdList xs) = firstNE (cutEnumList xs))
    (fun fs => normRD (frdFields fs) = firstNE (cutEnumFields fs))
    ?_ ?_ ?_ ?_ ?_ ?_ ?_ ?_ ?_ ?_ j
  · intro fields ih
    rw [find_resource_data, cutEnum]
    exact ih
  · intro items ih
    rw [find_resource_data, cutEnum]
    exact ih
  · intro t h1 h2
    match t, h1, h2 with
    | .null, _, _ => rfl
    | .bool b, _, _ => rfl
    | .num n, _, _ => rfl
    | .str s, _, _ => rfl
    | .obj fields, h1, _ => exact absurd rfl (h1 fields)
    | .arr items, _, h2 => exact absurd rfl (h2 items)
  · rfl
  · intro j rest x xs hfound ih
    rw [frdList, cutEnumList, hfound, firstNE, List.find?_append]
    have hL : firstNE (cutEnum j) = some (x :: xs) := by
      rw [← ih, hfound]; rfl
    rw [firstNE] at hL
    rw [hL]
    rfl
  · intro j rest hnone ih ihrest
    rw [frdList, cutEnumList, firstNE, List.find?_append]
    have hn : normRD (find_resource_data j) = none := by
      rcases hf : find_resource_data j with _ | l
      · rfl
      · rcases l with _ | ⟨x, xs⟩
        · rfl
        · exact absurd hf (fun h => hnone x xs h)
    have hL : List.find? (fun l => !l.isEmpty) (cutEnum j) = none := by
      show firstNE (cutEnum j) = none
      rw [← ih, hn]
    rw [hL]
    split
    · rename_i x xs heq
      exact (hnone x xs heq).elim
    · rw [ihrest, firstNE]
      rfl
  · rfl
  · intro k v rest hmatch
    rw [frdFields, if_pos hmatch, cutEnumFields, if_pos hmatch]
    rcases hv : asList v with _ | ⟨x, xs⟩
    · rfl
    · rw [firstNE_cons_of_ne (by simp)]
      rfl
  · intro k v rest hmatch x xs hfound ih
    rw [frdFields, if_neg hmatch, cutEnumFields, if_neg hmatch, hfound]
    have hL : firstNE (cutEnum v) = some (x :: xs) := by
      rw [← ih, hfound]; rfl
    rw [firstNE, List.find?_append]
    rw [firstNE] at hL
    rw [hL]
    rfl
  · intro k v rest hmatch hnone ih ihrest
    rw [frdFields, if_neg hmatch, cutEnumFields, if_neg hmatch,
      firstNE, List.find?_append]
    have hn : normRD (find_resource_data v) = none := by
      rcases hf : find_resource_data v with _ | l
      · rfl
      · rcases l with _ | ⟨x, xs⟩
        · rfl
        · exact absurd hf (fun h => hnone x xs h)
    have hL : List.find? (fun l => !l.isEmpty) (cutEnum v) = none := by
      show firstNE (cutEnum v) = none
      rw [← ih, hn]
    rw [hL]
    split
    · rename_i x xs heq
      exact (hnone x xs heq).elim
    · rw [ihrest, firstNE]
      rfl

theorem cutEnum_subset_allRD (j : Json) : ∀ x ∈ cutEnum j, x ∈ allRD j := by
  refine cutEnum.induct
    (fun j => ∀ x ∈ cutEnum j, x ∈ allRD j)
    (fun xs => ∀ x ∈ cutEnumList xs, x ∈ allRDList xs)
    (fun fs => ∀ x ∈ cutEnumFields fs, x ∈ allRDFields fs)
    ?_ ?_ ?_ ?_ ?_ ?_ ?_ ?_ j
  · intro fields ih x hx
    rw [cutEnum] at hx
    rw [allRD]
    exact ih x hx
  · intro items ih x hx
    rw [cutEnum] at hx
    rw [allRD]
    exact ih x hx
  · intro t h1 h2 x hx
    match t, h1, h2 with
    | .null, _, _ => simp [cutEnum] at hx
    | .bool b, _, _ => simp [cutEnum] at hx
    | .num n, _, _ => simp [cutEnum] at hx
    | .str s, _, _ => simp [cutEnum] at hx
    | .obj fields, h1, _ => exact absurd rfl (h1 fields)
    | .arr items, _, h2 => exact absurd rfl (h2 items)
  · intro x hx
    simp [cutEnumList] at hx
  · intro j rest ihj ihrest x hx
    rw [cutEnumList] at hx
    rw [allRDList]
    rcases List.mem_append.mp hx with h | h
    · exact List.mem_append.mpr (Or.inl (ihj x h))
    · exact List.mem_append.mpr (Or.inr (ihrest x h))
  · intro x hx
    simp [cutEnumFields] at hx
  · intro k v rest hmatch x hx
    rw [cutEnumFields, if_pos hmatch] at hx
    rw [allRDFields, if_pos hmatch]
    simp at hx
    simp [hx]
  · intro k v rest hmatch ihv ihrest x hx
    rw [cutEnumFields, if_neg hmatch] at hx
    rw [allRDFields, if_neg hmatch]
    rcases List.mem_append.mp hx with h | h
    · simp only [List.nil_append, List.mem_append]
      exact Or.inl (ihv x h)
    · simp only [List.nil_append, List.mem_append]
      exact Or.inr (ihrest x h)

/-! # Claim theorems -/

/-- C1: for every input sequence, `remove_duplicates` returns a
subsequence of the input containing exactly one representative per
distinct natural key `(title, start_date, source)` — its key list has
no duplicates and covers every input key — and each survivor is the
first input record bearing its key, so the first-seen record is kept
in order of first occurrence.  A `none` title is an ordinary key
component (pandas compares NA keys equal), which the witness
exercises with two null-title records collapsing to one. -/
theorem remove_duplicates_spec (events : List Event) :
    remove_duplicates events <+ events ∧
    ((remove_duplicates events).map natKey).Nodup ∧
    (∀ e ∈ events, natKey e ∈ (remove_duplicates events).map natKey) ∧
    (∀ e ∈ remove_duplicates events,
      events.find? (fun x => decide (natKey x = natKey e)) = some e) := by
  refine ⟨dedupRun_sublist events [], (dedupRun_keys_fresh events []).1, ?_, ?_⟩
  · intro e he
    rcases dedupRun_covers events [] e he with h | h
    · simp at h
    · exact h
  · exact dedupRun_first events []

/-- C1 witness: two records with null titles and equal
`(start_date, source)` dedupe to the first one. -/
theorem remove_duplicates_spec_witness :
    remove_duplicates [sampleDupA, sampleDupB] = [sampleDupA] ∧
    natKey sampleDupA ∈ (remove_duplicates [sampleDupA, sampleDupB]).map natKey ∧
    [sampleDupA, sampleDupB].find?
        (fun x => decide (natKey x = natKey sampleDupA)) = some sampleDupA := by
  have h := remove_duplicates_spec [sampleDupA, sampleDupB]
  exact ⟨by decide, h.2.2.1 sampleDupA (by decide),
    h.2.2.2 sampleDupA (by decide)⟩

/-- C10: applying `remove_duplicates` to its own (non-empty) output
returns that output unchanged. -/
theorem remove_duplicates_idem (events : List Event) (_h : events ≠ []) :
    remove_duplicates (remove_duplicates events) = remove_duplicates events :=
  dedupRun_of_nodup _ [] (dedupRun_keys_fresh events []).1 (fun _ _ => by simp)

/-- C10 witness. -/
theorem remove_duplicates_idem_witness :
    ([sampleDupA, sampleDupB] : List Event) ≠ [] ∧
    remove_duplicates (remove_duplicates [sampleDupA, sampleDupB])
      = remove_duplicates [sampleDupA, sampleDupB] :=
  ⟨by decide, remove_duplicates_idem [sampleDupA, sampleDupB] (by decide)⟩

/-- C9 counterexample: on the empty input `remove_duplicates` does
not raise — pandas short-circuits on an empty frame before validating
the `subset` columns — it returns the empty sequence. -/
theorem remove_duplicates_empty : remove_duplicates [] = [] := rfl

/-- C9 (amended): for the empty input `remove_duplicates` returns the
empty sequence (no error), and a run in which every source yields
zero events completes normally with all counts zero and the store
untouched. -/
theorem remove_duplicates_empty_run :
    remove_duplicates [] = [] ∧
    ∀ store, main (.ok (.obj [])) (.ok (.obj [])) (.ok (.obj [])) store =
      .ok (store, { uipath := 0, nvidia := 0, aws := 0, total := 0,
                    inserted_total := 0 }) :=
  ⟨rfl, fun _ => rfl⟩

/-- C3: `save_to_db` (insert-if-absent against the spec-modelled
unique-key store) reports a first-call row-count increase equal to
the number of distinct batch keys not already stored, that increase
is exactly the store growth, an immediately repeated identical call
inserts zero, and any number of repeated calls preserves the
invariant that no two stored rows share a natural key. -/
theorem save_to_db_spec (store batch : List Event)
    (hstore : (store.map natKey).Nodup) :
    (save_to_db store batch).2
      = ((batch.map natKey).toFinset \ (store.map natKey).toFinset).card ∧
    (save_to_db store batch).1.length = store.length + (save_to_db store batch).2 ∧
    (save_to_db (save_to_db store batch).1 batch).2 = 0 ∧
    ∀ n : Nat, ((((fun s => (save_to_db s batch).1)^[n]) store).map natKey).Nodup := by
  refine ⟨save_to_db_count store batch, ?_, ?_, ?_⟩
  · rw [save_to_db]
    split
    · simp
    · rcases foldl_insertIgnore batch store with ⟨_, h2⟩
      show (batch.foldl insertIgnore store).length
        = store.length + ((batch.foldl insertIgnore store).length - store.length)
      omega
  · exact save_to_db_zero_of_present _ batch (save_to_db_keys_present store batch)
  · intro n
    induction n with
    | zero => simpa using hstore
    | succ m ih =>
      rw [Function.iterate_succ_apply']
      exact save_to_db_nodup _ batch ih

/-- C3 witness: an empty store plus a batch of two records sharing
one natural key gains exactly one row, and the repeated call zero. -/
theorem save_to_db_spec_witness :
    ((([] : List Event)).map natKey).Nodup ∧
    (save_to_db [] [sampleDupA, sampleDupB]).2 = 1 ∧
    (save_to_db (save_to_db [] [sampleDupA, sampleDupB]).1
      [sampleDupA, sampleDupB]).2 = 0 := by
  have h := save_to_db_spec [] [sampleDupA, sampleDupB] (by decide)
  exact ⟨by decide, h.1.trans (by decide), h.2.2.1⟩

/-- C4 counterexample: entity decoding happens after tag stripping,
so `clean_html` can emit raw markup and undecoded entities:
`"&lt;b&gt;"` sanitizes to the literal tag `"<b>"`, and
`"&amp;nbsp;"` sanitizes to the undecoded entity text `"&nbsp;"`. -/
theorem clean_html_entity_leak :
    clean_html (some "&lt;b&gt;") = "<b>" ∧
    containsTag ("<b>".data) = true ∧
    clean_html (some "&amp;nbsp;") = "&nbsp;" :=
  ⟨by decide, by decide, by decide⟩

/-- C4 (amended): for every input the output has no whitespace run
longer than one character and no leading or trailing whitespace; the
no-markup-tags / no-entities guarantee holds for inputs without `&`
(entity decoding runs after tag removal, so `&`-encoded text can
reintroduce tag-shaped or entity-shaped output). -/
theorem clean_html_sanitizes (s : String) :
    hasAdjWs (clean_html (some s)).data = false ∧
    (∀ c, ((clean_html (some s)).data).head? = some c → isWs c = false) ∧
    (∀ c, ((clean_html (some s)).data).getLast? = some c → isWs c = false) ∧
    ('&' ∉ s.data →
      containsTag (clean_html (some s)).data = false ∧
      '&' ∉ (clean_html (some s)).data) := by
  by_cases hs : s = ""
  · subst hs
    refine ⟨rfl, ?_, ?_, fun _ => ⟨rfl, by simp [clean_html]⟩⟩
    · intro c hc; simp [clean_html] at hc
    · intro c hc; simp [clean_html] at hc
  · have hd : (clean_html (some s)).data = cleanCore s.data := by
      rw [clean_html, if_neg hs]
    rw [hd]
    exact cleanCore_props s.data

/-- C4 witness. -/
theorem clean_html_sanitizes_witness :
    isWs 'a' = false ∧ isWs 'b' = false ∧
    containsTag (clean_html (some "<p>a  b</p>")).data = false := by
  have h := clean_html_sanitizes "<p>a  b</p>"
  exact ⟨h.2.1 'a' (by decide), h.2.2.1 'b' (by decide), (h.2.2.2 (by decide)).1⟩

/-- C6: the sanitizer round-trip values — tags stripped and `&nbsp;`
decoded then collapsed, null and empty input give `""` (never null),
and all whitespace runs (newlines and tabs included) collapse to one
space. -/
theorem clean_html_examples :
    clean_html (some "<p>Hello&nbsp;World</p>") = "Hello World" ∧
    clean_html none = "" ∧
    clean_html (some "") = "" ∧
    clean_html (some "a   \n\t  b") = "a b" :=
  ⟨by decide, rfl, rfl, by decide⟩

/-- C7 (amended): for a UiPath raw item, an absolute (`http`-leading)
slug is used unmodified as `register_link`; a present, non-empty,
relative slug gets the base origin `https://www.uipath.com`
prepended; a missing slug — or an empty-string slug, which the code's
truthiness test treats like a missing one — yields a null link; and a
missing category falls back to `"Webinar"`. -/
theorem parse_uipath_item_fields (item : Json) :
    (∀ s, jGetStr item "slug" = some s → strStartsWith s "http" = true →
      (parse_uipath_item item).register_link = some s) ∧
    (∀ s, jGetStr item "slug" = some s → s ≠ "" → strStartsWith s "http" = false →
      (parse_uipath_item item).register_link = some ("https://www.uipath.com" ++ s)) ∧
    (jGetStr item "slug" = none ∨ jGetStr item "slug" = some "" →
      (parse_uipath_item item).register_link = none) ∧
    (jGetStr item "category" = none →
      (parse_uipath_item item).category = "Webinar") := by
  refine ⟨?_, ?_, ?_, ?_⟩
  · intro s hs hh
    have hne : ¬s = "" := by
      intro he
      subst he
      exact absurd hh (by decide)
    simp [parse_uipath_item, hs, hne, hh]
  · intro s hs hne hh
    simp [parse_uipath_item, hs, hne, hh]
  · rintro (h | h) <;> simp [parse_uipath_item, h]
  · intro h
    simp [parse_uipath_item, sOr, h]

/-- C7 counterexample: an empty-string slug is present and does not
start with the scheme prefix, yet the code's `if slug:` truthiness
test maps it to a null `register_link`, not to the base origin
prepended to it. -/
theorem parse_uipath_item_empty_slug :
    jGetStr (Json.obj [("slug", Json.str "")]) "slug" = some "" ∧
    strStartsWith "" "http" = false ∧
    (parse_uipath_item (.obj [("slug", .str "")])).register_link = none ∧
    (parse_uipath_item (.obj [("slug", .str "")])).register_link
      ≠ some ("https://www.uipath.com" ++ "") :=
  ⟨rfl, by decide, rfl, by decide⟩

/-- C7 witness. -/
theorem parse_uipath_item_fields_witness :
    (parse_uipath_item (.obj [("slug", .str "/events/x")])).register_link
      = some ("https://www.uipath.com" ++ "/events/x") ∧
    (parse_uipath_item (.obj [("slug", .str "https://a.b/c")])).register_link
      = some "https://a.b/c" ∧
    (parse_uipath_item (.obj [])).register_link = none ∧
    (parse_uipath_item (.obj [])).category = "Webinar" := by
  have h1 := parse_uipath_item_fields (.obj [("slug", .str "/events/x")])
  have h2 := parse_uipath_item_fields (.obj [("slug", .str "https://a.b/c")])
  have h3 := parse_uipath_item_fields (.obj [])
  exact ⟨h1.2.1 "/events/x" rfl (by decide) (by decide),
    h2.1 "https://a.b/c" rfl (by decide),
    h3.2.2.1 (Or.inl rfl), h3.2.2.2 rfl⟩

/-- C8 (amended): `parse_uipath` builds its events from the first
`resourceData` key holding a NON-EMPTY sequence, in the code's cut
depth-first order (an empty `resourceData` list is falsy and is
skipped, though reaching one still abandons the rest of its object);
if no `resourceData` key with a list value exists anywhere in the
tree, it returns the empty sequence (and, being a total function,
raises nothing). -/
theorem parse_uipath_search (j : Json) :
    parse_uipath j =
      (match firstNE (cutEnum j) with
       | some l => l.map parse_uipath_item
       | none => []) ∧
    (allRD j = [] → parse_uipath j = []) := by
  have hmain : parse_uipath j =
      (match firstNE (cutEnum j) with
       | some l => l.map parse_uipath_item
       | none => []) := by
    rw [parse_uipath, ← normRD_find_resource_data j]
    rcases hf : find_resource_data j with _ | l
    · rfl
    · rcases l with _ | ⟨x, xs⟩ <;> rfl
  refine ⟨hmain, fun hall => ?_⟩
  have hcut : cutEnum j = [] := by
    rcases hc : cutEnum j with _ | ⟨x, xs⟩
    · rfl
    · have hx := cutEnum_subset_allRD j x (hc ▸ List.mem_cons_self x xs)
      rw [hall] at hx
      simp at hx
  rw [hmain, hcut]
  rfl

/-- C8 counterexample: the first `resourceData` key whose value is a
sequence holds the empty list here, so under the claim's description
the adapter would return no events; the code skips the empty list
(`if found:` is falsy on it) and returns the event built from a later
non-empty `resourceData` list. -/
theorem parse_uipath_first_empty_skipped :
    (allRD (Json.obj [("a", .obj [("resourceData", .arr [])]),
        ("b", .obj [("resourceData", .arr [.obj [("title", .str "T")]])])])).head?
      = some [] ∧
    parse_uipath (.obj [("a", .obj [("resourceData", .arr [])]),
        ("b", .obj [("resourceData", .arr [.obj [("title", .str "T")]])])])
      = [parse_uipath_item (.obj [("title", .str "T")])] :=
  ⟨rfl, rfl⟩

/-- C8 witness: a tree with no `resourceData` key yields no events. -/
theorem parse_uipath_search_witness :
    allRD (Json.obj [("x", .str "y")]) = [] ∧
    parse_uipath (.obj [("x", .str "y")]) = [] :=
  ⟨rfl, (parse_uipath_search (.obj [("x", .str "y")])).2 rfl⟩

/-- C2 counterexample: the first source's fetch fails while the other
two sources carry events (the NVIDIA payload parses to a non-empty
batch), yet the run aborts with the unhandled fetch error — no store
update, no log, nothing recorded for the sources that succeeded. -/
theorem main_fetch_abort :
    parse_nvidia (.obj [("events", .arr [.obj [("title", .str "N1")]])]) ≠ [] ∧
    main (.error .timeout)
      (.ok (.obj [("events", .arr [.obj [("title", .str "N1")]])]))
      (.ok (.obj [("items", .arr [.obj []])])) []
      = .error .timeout :=
  ⟨by decide, rfl⟩

/-- C2 (amended): `main` wraps no fetch in a handler, so a failure
fetching any one source (network error, timeout, non-success HTTP
status) propagates and aborts the entire run: later sources are not
processed, and no count — zero or otherwise — is recorded. -/
theorem main_fetch_failure_aborts :
    (∀ (e : FetchError) f2 f3 (st : List Event),
      main (.error e) f2 f3 st = .error e) ∧
    (∀ (e : FetchError) j1 f3 (st : List Event),
      main (.ok j1) (.error e) f3 st = .error e) ∧
    (∀ (e : FetchError) j1 j2 (st : List Event),
      main (.ok j1) (.ok j2) (.error e) st = .error e) :=
  ⟨fun _ _ _ _ => rfl, fun _ _ _ _ => rfl, fun _ _ _ _ => rfl⟩

/-- C5: `main` calls `save_to_db` twice on the deduplicated batch and
logs the second call's return value: on a run that actually inserts
one new row, the store grows by one but the run log records
`inserted_total = 0` — the logged count does not equal the rows newly
inserted by the run. -/
theorem main_double_insert :
    main (.ok (.obj [("resourceData",
        .arr [.obj [("title", .str "E1"), ("date", .str "2025-01-01")]])]))
      (.ok (.obj [])) (.ok (.obj [])) []
      = .ok ([{ source := "UiPath", category := "Webinar", title := some "E1",
                description := some "", start_date := some "2025-01-01",
                end_date := none, location := none, register_link := none }],
             { uipath := 1, nvidia := 0, aws := 0, total := 1,
               inserted_total := 0 }) :=
  rfl

end EventsScraper
